import Mathlib

/-!
# Verification of the Trace Explorer application (`src/app.py`)

A shallow embedding of the core logic of the Trace Explorer Flask app:
CSV-row parsing into conversation traces, the LLM batch-scoring
orchestration and its merge step, the WRI-connections two-stage pipeline,
the markdown-fence response cleanup, the query/sort layer and the
translation memo.  External services (the Gemini LLM and the grounded
search) are modelled as oracle parameters; Python `float` values are
modelled as rationals (no claim exercises rounding); Python `dict`s are
modelled as association lists; Python strings are modelled as `String`
or, where splitting proofs are needed, as `List Char`.
-/

set_option maxHeartbeats 1000000

namespace App

/-! ## Python dict operations (association-list model)

`setk m k v` models `m[k] = v` (overwrite in place, else append);
`getk m k` models `m.get(k)`; `getk m k ≠ none` models `k in m`. -/

def setk {α : Type} (m : List (String × α)) (k : String) (v : α) : List (String × α) :=
  match m with
  | [] => [(k, v)]
  | (k', v') :: rest => if k' = k then (k, v) :: rest else (k', v') :: setk rest k v

def getk {α : Type} (m : List (String × α)) (k : String) : Option α :=
  match m with
  | [] => none
  | (k', v') :: rest => if k' = k then some v' else getk rest k

theorem getk_setk_self {α : Type} (m : List (String × α)) (k : String) (v : α) :
    getk (setk m k v) k = some v := by
  induction m with
  | nil => simp [setk, getk]
  | cons p rest ih =>
    obtain ⟨k', v'⟩ := p
    by_cases h : k' = k
    · simp [setk, getk, h]
    · simp [setk, getk, h, ih]

theorem getk_setk_ne {α : Type} (m : List (String × α)) (k k' : String) (v : α)
    (h : k' ≠ k) : getk (setk m k v) k' = getk m k' := by
  induction m with
  | nil => simp [setk, getk, Ne.symm h]
  | cons p rest ih =>
    obtain ⟨k0, v0⟩ := p
    by_cases h0 : k0 = k
    · subst h0
      simp [setk, getk, Ne.symm h]
    · simp only [setk, if_neg h0, getk]
      by_cases h1 : k0 = k'
      · simp [h1]
      · simp [h1, ih]

/-! ## Numeric coercions

`parse_traces` builds each numeric field with `float(row.get(col, 0) or 0)`
or `int(row.get(col, 0) or 0)`.  A missing column yields the default `0`, an
empty string is falsy and `or 0` turns it into `0`; otherwise the string is
handed to `float`/`int`, which raise `ValueError` on an unparsable value —
and that exception is caught by the surrounding row-level handler, skipping
the row.  `pyInt`/`pyFloat` model Python's `int(str)`/`float(str)` on their
usual decimal forms (underscore grouping, `inf`/`nan` are not modelled;
no claim exercises them), with `none` for `ValueError`. -/

def digitsVal (l : List Char) : Nat :=
  l.foldl (fun n c => 10 * n + (c.toNat - 48)) 0

/-- Drop trailing characters satisfying `p` (via reversal). -/
def dropTrail (p : Char → Bool) (l : List Char) : List Char :=
  (l.reverse.dropWhile p).reverse

/-- Python `str.strip()`: remove leading and trailing whitespace. -/
def pyStrip (l : List Char) : List Char :=
  dropTrail Char.isWhitespace (l.dropWhile Char.isWhitespace)

def pyInt (s : String) : Option Int :=
  let cs := pyStrip s.toList
  match cs with
  | '+' :: ds => if ds ≠ [] ∧ ds.all Char.isDigit then some (digitsVal ds : Int) else none
  | '-' :: ds => if ds ≠ [] ∧ ds.all Char.isDigit then some (-(digitsVal ds : Int)) else none
  | ds => if ds ≠ [] ∧ ds.all Char.isDigit then some (digitsVal ds : Int) else none

def parseExp (cs : List Char) : Option Int :=
  match cs with
  | '+' :: ds => if ds ≠ [] ∧ ds.all Char.isDigit then some (digitsVal ds : Int) else none
  | '-' :: ds => if ds ≠ [] ∧ ds.all Char.isDigit then some (-(digitsVal ds : Int)) else none
  | ds => if ds ≠ [] ∧ ds.all Char.isDigit then some (digitsVal ds : Int) else none

def pyFloatCore (cs : List Char) : Option Rat :=
  let ip := cs.takeWhile Char.isDigit
  let rest := cs.dropWhile Char.isDigit
  match rest with
  | [] => if ip ≠ [] then some (digitsVal ip : Rat) else none
  | '.' :: rest2 =>
    let fp := rest2.takeWhile Char.isDigit
    let rest3 := rest2.dropWhile Char.isDigit
    if ip = [] ∧ fp = [] then none else
    let mant : Rat := (digitsVal ip : Rat) + (digitsVal fp : Rat) / ((10 : Rat) ^ fp.length)
    match rest3 with
    | [] => some mant
    | e :: rest4 =>
      if e = 'e' ∨ e = 'E' then (parseExp rest4).map (fun k => mant * (10 : Rat) ^ k) else none
  | e :: rest4 =>
    if (e = 'e' ∨ e = 'E') ∧ ip ≠ [] then
      (parseExp rest4).map (fun k => (digitsVal ip : Rat) * (10 : Rat) ^ k)
    else none

def pyFloat (s : String) : Option Rat :=
  match pyStrip s.toList with
  | '+' :: rest => pyFloatCore rest
  | '-' :: rest => (pyFloatCore rest).map Neg.neg
  | cs => pyFloatCore cs

/-- `float(row.get(col, 0) or 0)`: missing column or empty string → `0.0`,
otherwise `float(str)` (`none` = `ValueError`, which skips the row). -/
def coerceFloat (v : Option String) : Option Rat :=
  match v with
  | none => some 0
  | some s => if s = "" then some 0 else pyFloat s

/-- `int(row.get(col, 0) or 0)`: missing column or empty string → `0`,
otherwise `int(str)` (`none` = `ValueError`, which skips the row). -/
def coerceInt (v : Option String) : Option Int :=
  match v with
  | none => some 0
  | some s => if s = "" then some 0 else pyInt s

/-! ## The trace parser (`parse_traces`) -/

/-- One element of a list-valued message `content`:  either a JSON object
(with optional `type` and `text` keys, `none` = key absent) or a non-dict
value, which the list flattening skips. -/
inductive ContentPart : Type
  | dict (type : Option String) (text : Option String)
  | nonDict
deriving DecidableEq

/-- A message's `content` value: a string (a missing key defaults to `''`,
hence `.str ""`) or a list of parts. -/
inductive MsgContent : Type
  | str (s : String)
  | list (ps : List ContentPart)
deriving DecidableEq

/-- One entry of a decoded `messages` list: `type` is `msg.get('type')`
(`none` = key absent), `content` is `msg.get('content', '')`. -/
structure Msg : Type where
  type : Option String
  content : MsgContent
deriving DecidableEq

/-- One `{role, content}` turn of a stored conversation. -/
structure Turn : Type where
  role : String
  content : String
deriving DecidableEq

/-- A decoded `input`/`output` CSV column: `ok msgs` is a JSON object whose
`messages` key yields `msgs` (a missing/empty column decodes to `{}`, i.e.
`ok []`); `bad` is a `json.JSONDecodeError`, which skips the row. -/
inductive JsonCol : Type
  | ok (messages : List Msg)
  | bad
deriving DecidableEq

/-- One CSV row as seen by `csv.DictReader`: `none` = column absent
(`row.get` returns the given default). -/
structure Row : Type where
  id : Option String
  timestamp : Option String
  name : Option String
  sessionId : Option String
  userId : Option String
  input : JsonCol
  output : JsonCol
  latency : Option String
  inputTokens : Option String
  outputTokens : Option String
  totalCost : Option String
  errorCount : Option String
deriving DecidableEq

/-- One parsed trace.  `scores`/`analysis` model the two per-category
dicts, populated by the analyze endpoint. -/
structure Trace : Type where
  id : String
  timestamp : String
  name : String
  session_id : String
  user_id : String
  conversation : List Turn
  latency : Rat
  input_tokens : Int
  output_tokens : Int
  total_cost : Rat
  error_count : Int
  scores : List (String × Int)
  analysis : List (String × String)
deriving DecidableEq

/-- Input-side message processing: keep a message iff its `content` is a
non-empty string; role is `msg.get('type', 'human')`. -/
def processInput (msgs : List Msg) : List Turn :=
  msgs.filterMap fun m =>
    match m.content with
    | .str s => if s = "" then none else some ⟨m.type.getD "human", s⟩
    | .list _ => none

/-- List-part flattening for output-side content: keep only dict parts with
`type == 'text'`, take their `text` (default `''`), join with newlines. -/
def flattenContent : MsgContent → String
  | .str s => s
  | .list ps =>
    String.intercalate "\n"
      (ps.filterMap fun p =>
        match p with
        | .dict ty tx => if ty = some "text" then some (tx.getD "") else none
        | .nonDict => none)

/-- Output-side message processing with the `seen_contents` dedup set
(modelled as a list; membership is exact string equality): append a turn
iff the flattened content is non-empty and not already seen; role is
`msg.get('type', 'ai')`. -/
def processOutput (msgs : List Msg) (conv : List Turn) (seen : List String) : List Turn :=
  match msgs with
  | [] => conv
  | m :: rest =>
    let content := flattenContent m.content
    if content ≠ "" ∧ content ∉ seen then
      processOutput rest (conv ++ [⟨m.type.getD "ai", content⟩]) (content :: seen)
    else
      processOutput rest conv seen

/-- Build the conversation thread: input messages, then output messages
deduplicated against `set(m['content'] for m in conversation)`. -/
def buildConversation (inMsgs outMsgs : List Msg) : List Turn :=
  let conv := processInput inMsgs
  processOutput outMsgs conv (conv.map (fun t => t.content))

/-- The body of `parse_traces`' per-row `try` block: `none` covers both the
caught exceptions (`json.JSONDecodeError`, `ValueError` from a numeric
coercion — `continue`) and the empty-conversation drop; either way the row
contributes no trace. -/
def parseRow (r : Row) : Option Trace :=
  match r.input, r.output with
  | .ok inMsgs, .ok outMsgs =>
    match coerceFloat r.latency, coerceInt r.inputTokens, coerceInt r.outputTokens,
          coerceFloat r.totalCost, coerceInt r.errorCount with
    | some latency, some input_tokens, some output_tokens, some total_cost, some error_count =>
      let conversation := buildConversation inMsgs outMsgs
      if conversation = [] then none
      else
        some { id := r.id.getD "", timestamp := r.timestamp.getD "", name := r.name.getD "",
               session_id := r.sessionId.getD "", user_id := r.userId.getD "",
               conversation := conversation, latency := latency,
               input_tokens := input_tokens, output_tokens := output_tokens,
               total_cost := total_cost, error_count := error_count,
               scores := [], analysis := [] }
    | _, _, _, _, _ => none
  | _, _ => none

/-- `parse_traces` over the decoded rows of the CSV file. -/
def parse_traces (rows : List Row) : List Trace :=
  rows.filterMap parseRow

/-- A row with no populated columns, for building concrete instances. -/
def emptyRow : Row :=
  { id := none, timestamp := none, name := none, sessionId := none, userId := none,
    input := .ok [], output := .ok [], latency := none, inputTokens := none,
    outputTokens := none, totalCost := none, errorCount := none }

/-! ## Conversation rendering (`get_conversation_text`) -/

/-- `'User' if msg['role'] in ['human', 'user'] else 'Assistant'`. -/
def roleLabel (role : String) : String :=
  if role = "human" ∨ role = "user" then "User" else "Assistant"

/-- `get_conversation_text`: one `Role: content` line per turn (content
truncated to 2000 characters), blank line between turns. -/
def get_conversation_text (t : Trace) : String :=
  String.intercalate "\n\n"
    (t.conversation.map (fun m => roleLabel m.role ++ ": " ++ m.content.take 2000))

/-! ## Analysis results and the merge step of `analyze_traces` -/

/-- One per-trace result `{trace_id, score, reason}` accumulated by an
analysis run. -/
structure AResult : Type where
  trace_id : String
  score : Int
  reason : String
deriving DecidableEq

/-- `{a['trace_id']: a for a in all_analyses}` — a dict comprehension;
later entries overwrite earlier ones. -/
def analysis_map (all : List AResult) : List (String × AResult) :=
  all.foldl (fun m a => setk m a.trace_id a) []

/-- Per-trace merge: if the trace's id is in the analysis map, set
`scores[category]` and `analysis[category]`, else leave it untouched. -/
def mergeT (category : String) (m : List (String × AResult)) (t : Trace) : Trace :=
  match getk m t.id with
  | some a => { t with scores := setk t.scores category a.score,
                       analysis := setk t.analysis category a.reason }
  | none => t

/-- The merge loop of `analyze_traces`: update every trace whose id appears
in the accumulated result list. -/
def merge_results (ts : List Trace) (category : String) (all : List AResult) : List Trace :=
  ts.map (mergeT category (analysis_map all))

/-! ## The query layer (`/api/traces`) -/

/-- The five category keys of `INTEREST_CATEGORIES`. -/
def INTEREST_CATEGORIES : List String :=
  ["showcase", "product_features", "research_areas", "dataset_priorities", "wri_connections"]

/-- The sort key: `x['scores'].get(category, 0)`. -/
def scoreKey (category : String) (t : Trace) : Int :=
  (getk t.scores category).getD 0

/-- Insert `x` behind every element whose key is at least `key x` — one step
of a stable descending insertion sort. -/
def insertDesc (key : Trace → Int) (x : Trace) : List Trace → List Trace
  | [] => [x]
  | y :: ys => if key x ≤ key y then y :: insertDesc key x ys else x :: y :: ys

/-- Python's `list.sort(key=..., reverse=True)` is a stable descending sort;
a stable sort is uniquely determined by key and input order, so the stable
descending insertion sort models it exactly. -/
def sortDescBy (key : Trace → Int) (l : List Trace) : List Trace :=
  l.foldl (fun acc x => insertDesc key x acc) []

/-- Python `result[:n]` for an `int` n (negative n counts from the end). -/
def pySliceTo {α : Type} (n : Int) (l : List α) : List α :=
  if 0 ≤ n then l.take n.toNat else l.take (l.length - (-n).toNat)

/-- `GET /api/traces`: optional category filter + stable descending sort,
then `if limit: result = result[:limit]` (note `limit = 0` is falsy). -/
def get_traces (ts : List Trace) (category : Option String) (limit : Option Int) :
    List Trace :=
  let result :=
    match category with
    | some c =>
      if c ∈ INTEREST_CATEGORIES then
        sortDescBy (scoreKey c) (ts.filter (fun t => (getk t.scores c).isSome))
      else ts
    | none => ts
  match limit with
  | some n => if n ≠ 0 then pySliceTo n result else result
  | none => result

/-! ## The WRI-connections pipeline (`analyze_wri_connections_batch`)

The two LLM interactions are modelled as oracles: `classify` is the
classification call combined with fence-stripping and JSON decoding
(`none` = a raised exception or undecodable output, i.e. the `except`
branch); `search` is `search_wri_evidence`, which catches its own errors
and always returns an evidence dict. -/

/-- The decoded classification JSON.  `none` on an `Option` field models an
absent key (`analysis.get(key, default)`). -/
structure WriAnalysis : Type where
  score : Option Int
  has_connection : Bool
  topic : Option String
  region : Option String
  wri_program : Option String
  partner_type : Option String
  story : Option String
deriving DecidableEq

/-- The evidence dict returned by `search_wri_evidence`. -/
structure Evidence : Type where
  found : Bool
  url : Option String
  title : Option String
  source : Option String
deriving DecidableEq

/-- `' '.join(filter(None, parts))`. -/
def joinFiltered (parts : List String) : String :=
  String.intercalate " " (parts.filter (fun s => s ≠ ""))

/-- The search query built from the extracted classification fields. -/
def searchQueryOf (a : WriAnalysis) : String :=
  let topic := a.topic.getD ""
  let region := a.region.getD ""
  let program := a.wri_program.getD ""
  let partner_type := a.partner_type.getD ""
  joinFiltered
    ([topic, region] ++ (if program ≠ "" then [program] else []) ++
      (if partner_type ≠ "" then ["WRI " ++ partner_type ++ " partnership"] else []))

/-- The per-trace body of `analyze_wri_connections_batch`'s loop.  Returns
the appended result together with the number of `search_wri_evidence`
calls issued (0 or 1). -/
def analyze_wri_trace (tid : String) (classify : Option WriAnalysis)
    (search : String → String → String → Evidence) : AResult × Nat :=
  match classify with
  | none => ({ trace_id := tid, score := 0, reason := "Analysis error" }, 0)
  | some analysis =>
    let score0 := analysis.score.getD 0
    let reason0 := analysis.story.getD "No specific WRI connection identified."
    if 50 ≤ score0 ∧ analysis.has_connection then
      let region := analysis.region.getD ""
      let program := analysis.wri_program.getD ""
      let search_query := searchQueryOf analysis
      if search_query ≠ "" then
        let evidence := search search_query (if region ≠ "" then region else "global") program
        if evidence.found ∧ evidence.url.getD "" ≠ "" then
          let url := evidence.url.getD ""
          let source := evidence.source.getD ""
          let source_text := if source ≠ "" then " (" ++ source ++ ")" else ""
          ({ trace_id := tid, score := min 100 (score0 + 5),
             reason := analysis.story.getD "" ++ " See: " ++ url ++ source_text }, 1)
        else
          ({ trace_id := tid, score := score0, reason := reason0 }, 1)
      else
        ({ trace_id := tid, score := score0, reason := reason0 }, 0)
    else
      ({ trace_id := tid, score := score0, reason := reason0 }, 0)

/-- `analyze_wri_connections_batch`: one result per trace, appended in
order; the classification oracle is keyed by trace id (the prompt itself
only feeds the external call). -/
def analyze_wri_connections_batch (traces : List Trace)
    (classify : String → Option WriAnalysis)
    (search : String → String → String → Evidence) : List AResult :=
  traces.map (fun t => (analyze_wri_trace t.id (classify t.id) search).1)

/-! ## Response cleanup (fence stripping)

Every LLM reply goes through the same cleanup:

```
if '```json' in result_text:
    result_text = result_text.split('```json')[1].split('```')[0]
elif '```' in result_text:
    result_text = result_text.split('```')[1].split('```')[0]
result = json.loads(result_text.strip())
```

`leadsList sep s` decides whether `sep` is a leading segment of `s`;
`pySplit sep s` models Python's `s.split(sep)` (leftmost, non-overlapping);
`hasOcc sep s` models `sep in s`, which is equivalent to
`len(s.split(sep)) >= 2`. -/

/-- `sep` is a leading segment of `s`. -/
def leadsList : List Char → List Char → Bool
  | [], _ => true
  | _ :: _, [] => false
  | c :: cs, d :: ds => c = d && leadsList cs ds

/-- `sep in s` (substring occurrence test over all suffixes). -/
def hasOcc (sep : List Char) : List Char → Bool
  | [] => sep.isEmpty
  | s@(_ :: rest) => leadsList sep s || hasOcc sep rest

/-- Fuel-driven worker for `pySplit` (fuel makes the definition structural,
hence kernel-computable; `pySplit` supplies enough fuel). -/
def pySplitF (sep : List Char) : Nat → List Char → List (List Char)
  | 0, s => [s]
  | _ + 1, [] => [[]]
  | n + 1, c :: rest =>
    if leadsList sep (c :: rest) then
      [] :: pySplitF sep n ((c :: rest).drop sep.length)
    else
      match pySplitF sep n rest with
      | [] => [c :: rest]
      | seg :: segs => (c :: seg) :: segs

/-- Python `s.split(sep)` for a non-empty separator (Python raises on an
empty separator; no call site uses one). -/
def pySplit (sep s : List Char) : List (List Char) :=
  if sep = [] then [s] else pySplitF sep (s.length + 1) s

/-- The separator `'```json'`. -/
def jsonFence : List Char := "```json".toList

/-- The separator `'```'`. -/
def tickFence : List Char := "```".toList

/-- The cleanup step: fence stripping followed by `.strip()`.  Python's
`lst[i]` on the split results is total here because it is guarded by the
membership test (`≥ 2` parts). -/
def cleanResponse (s : List Char) : List Char :=
  let js := pySplit jsonFence s
  let t :=
    if 2 ≤ js.length then
      (pySplit tickFence (js.getD 1 [])).getD 0 []
    else
      let bs := pySplit tickFence s
      if 2 ≤ bs.length then (pySplit tickFence (bs.getD 1 [])).getD 0 []
      else s
  pyStrip t

/-- A JSON scalar value, for relating cleaned texts to parsed values. -/
inductive JsonLite : Type
  | num (n : Int)
  | str (s : List Char)
deriving DecidableEq

/-- Modelled from the spec: `json.loads` (Python standard library, not part
of this repository) restricted to the scalar fragment the claims exercise —
an optionally-signed integer numeral or a double-quoted string without
escapes; `none` models `json.JSONDecodeError` (e.g. on an unterminated
string). -/
def jsonScalar (s : List Char) : Option JsonLite :=
  match pyStrip s with
  | [] => none
  | '-' :: ds => if ds ≠ [] ∧ ds.all Char.isDigit then some (.num (-(digitsVal ds : Int))) else none
  | '"' :: rest =>
    if rest.getLast? = some '"' ∧ rest.dropLast.all (fun c => c ≠ '"' ∧ c ≠ '\\') then
      some (.str rest.dropLast)
    else none
  | ds => if ds.all Char.isDigit then some (.num (digitsVal ds : Int)) else none

/-! ## The generic batch scorer (`analyze_trace_batch`) and the
orchestration loop of `analyze_traces`

The LLM reply is an oracle (`failure` = a raised exception); `json.loads`
on the full structured reply is a decoder parameter (it is an external
library call whose only relevant behaviour is success/failure and the
decoded `analyses` list). -/

/-- Outcome of one `generate_content` call. -/
inductive LLMReply : Type
  | failure
  | text (s : List Char)

/-- The decoded JSON object of a generic scoring reply; `analyses` is
`result.get('analyses', [])`. -/
structure AnalysesPayload : Type where
  analyses : Option (List AResult)

/-- `analyze_trace_batch`: call, fence-strip, decode; any exception or
decode failure yields `[]`. -/
def analyze_trace_batch (decode : List Char → Option AnalysesPayload)
    (reply : LLMReply) : List AResult :=
  match reply with
  | .failure => []
  | .text s =>
    match decode (cleanResponse s) with
    | none => []
    | some payload => payload.analyses.getD []

/-- `range(0, len(traces_data), 5)` batching: groups of five, last group
possibly smaller. -/
def chunkBatches {α : Type} : List α → List (List α)
  | [] => []
  | a :: b :: c :: d :: e :: rest => [a, b, c, d, e] :: chunkBatches rest
  | l => [l]

/-- The `for i in range(...)` accumulation loop: each batch's results are
extended onto `all_analyses` in order; `replies i` is the LLM reply for the
i-th batch. -/
def runBatches (decode : List Char → Option AnalysesPayload)
    (replies : Nat → LLMReply) : Nat → List (List Trace) → List AResult
  | _, [] => []
  | i, _ :: bs => analyze_trace_batch decode (replies i) ++ runBatches decode replies (i + 1) bs

/-- The full generic accumulation of `analyze_traces` (before the merge). -/
def analyze_run_generic (decode : List Char → Option AnalysesPayload)
    (replies : Nat → LLMReply) (ts : List Trace) : List AResult :=
  runBatches decode replies 0 (chunkBatches ts)

/-! ## Translation endpoint (`/api/translate/<id>`) -/

/-- One entry of the `translations` array of a decoded translation reply. -/
structure Translation : Type where
  index : Nat
  original_language : String
  translation : Option String
deriving DecidableEq

/-- The decoded JSON payload of a successful translation call. -/
structure TransResult : Type where
  detected_language : String
  translations : List Translation
deriving DecidableEq

/-- The three response shapes of the endpoint: 200 with a payload,
404 `{'error': 'Trace not found'}`, or 500 `{'error': str(e)}`. -/
inductive TransResponse : Type
  | payload (r : TransResult)
  | notFound
  | failure
deriving DecidableEq

/-- `translate_trace`: cache check, first-match trace lookup, then the LLM
call (`oracle`; `none` = exception or undecodable output).  Returns the
response, the updated `translation_cache` and the number of translation
LLM calls issued. -/
def translate_trace (traces : List Trace) (cache : List (String × TransResult))
    (oracle : Option TransResult) (trace_id : String) :
    TransResponse × List (String × TransResult) × Nat :=
  match getk cache trace_id with
  | some r => (.payload r, cache, 0)
  | none =>
    match traces.find? (fun t => t.id = trace_id) with
    | none => (.notFound, cache, 0)
    | some _ =>
      match oracle with
      | some r => (.payload r, setk cache trace_id r, 1)
      | none => (.failure, cache, 1)

/-! ## Helper lemmas -/

/-- The dict comprehension `{a['trace_id']: a for a in all_analyses}` maps
each key to the LAST entry with that `trace_id` (later assignments
overwrite earlier ones). -/
theorem getk_analysis_map (all : List AResult) (k : String) :
    getk (analysis_map all) k = (all.filter (fun a => a.trace_id = k)).getLast? := by
  induction all using List.reverseRecOn with
  | nil => rfl
  | append_singleton l x ih =>
    unfold analysis_map at ih ⊢
    rw [List.foldl_append, List.foldl_cons, List.foldl_nil]
    by_cases h : x.trace_id = k
    · subst h
      rw [getk_setk_self, List.filter_append]
      simp [List.filter_cons]
    · rw [getk_setk_ne _ _ _ _ (Ne.symm h), ih, List.filter_append]
      simp [List.filter_cons, h]

theorem parseRow_some (r : Row) (t : Trace) (hp : parseRow r = some t) :
    ∃ inMsgs outMsgs lat it ot tc ec,
      r.input = .ok inMsgs ∧ r.output = .ok outMsgs ∧
      coerceFloat r.latency = some lat ∧ coerceInt r.inputTokens = some it ∧
      coerceInt r.outputTokens = some ot ∧ coerceFloat r.totalCost = some tc ∧
      coerceInt r.errorCount = some ec ∧
      buildConversation inMsgs outMsgs ≠ [] ∧
      t = { id := r.id.getD "", timestamp := r.timestamp.getD "", name := r.name.getD "",
            session_id := r.sessionId.getD "", user_id := r.userId.getD "",
            conversation := buildConversation inMsgs outMsgs, latency := lat,
            input_tokens := it, output_tokens := ot, total_cost := tc,
            error_count := ec, scores := [], analysis := [] } := by
  unfold parseRow at hp
  rcases hi : r.input with inMsgs | _ <;> rw [hi] at hp
  case bad => simp at hp
  rcases ho : r.output with outMsgs | _ <;> rw [ho] at hp
  case bad => simp at hp
  rcases hlat : coerceFloat r.latency with _ | lat <;> rw [hlat] at hp
  case none => simp at hp
  rcases hit : coerceInt r.inputTokens with _ | it <;> rw [hit] at hp
  case none => simp at hp
  rcases hot : coerceInt r.outputTokens with _ | ot <;> rw [hot] at hp
  case none => simp at hp
  rcases htc : coerceFloat r.totalCost with _ | tc <;> rw [htc] at hp
  case none => simp at hp
  rcases hec : coerceInt r.errorCount with _ | ec <;> rw [hec] at hp
  case none => simp at hp
  by_cases hc : buildConversation inMsgs outMsgs = []
  · simp only [hc, if_pos rfl] at hp
    exact absurd hp (by simp [hc])
  · simp only [if_neg hc] at hp
    exact ⟨inMsgs, outMsgs, lat, it, ot, tc, ec, rfl, rfl, rfl, rfl, rfl, rfl, rfl, hc,
      (Option.some_inj.mp hp).symm⟩

/-! ## C1 — echoed output messages are deduplicated -/

/-- C1: a row whose input messages are `[{type:"human",content:"hi"}]` and
whose output messages are `[{type:"ai",content:"hi"},{type:"ai",content:"hello"}]`
parses (whenever it parses at all) to a conversation of exactly the two
turns `human:"hi"` then `ai:"hello"`; the echoed `"hi"` is dropped by the
`seen_contents` dedup. -/
theorem C1_echo_dedup (r : Row) (t : Trace)
    (hin : r.input = .ok [⟨some "human", .str "hi"⟩])
    (hout : r.output = .ok [⟨some "ai", .str "hi"⟩, ⟨some "ai", .str "hello"⟩])
    (hp : parseRow r = some t) :
    t.conversation = [⟨"human", "hi"⟩, ⟨"ai", "hello"⟩] := by
  obtain ⟨inMsgs, outMsgs, lat, it, ot, tc, ec, hi, ho, _, _, _, _, _, _, ht⟩ :=
    parseRow_some r t hp
  rw [hin] at hi
  rw [hout] at ho
  cases hi
  cases ho
  rw [ht]
  show buildConversation _ _ = _
  decide

def rC1 : Row :=
  { emptyRow with
    input := .ok [⟨some "human", .str "hi"⟩],
    output := .ok [⟨some "ai", .str "hi"⟩, ⟨some "ai", .str "hello"⟩] }

def tC1 : Trace :=
  { id := "", timestamp := "", name := "", session_id := "", user_id := "",
    conversation := [⟨"human", "hi"⟩, ⟨"ai", "hello"⟩], latency := 0,
    input_tokens := 0, output_tokens := 0, total_cost := 0, error_count := 0,
    scores := [], analysis := [] }

/-- Witness for C1 at a fully concrete row. -/
theorem C1_echo_dedup_witness :
    tC1.conversation = [⟨"human", "hi"⟩, ⟨"ai", "hello"⟩] :=
  C1_echo_dedup rC1 tC1 rfl rfl (by decide)

/-! ## C2 — numeric fallbacks

The claim also asserts that an *unparsable* numeric value falls back to
zero with the row still loaded.  It does not: `float('abc')` raises
`ValueError`, which the row-level `except (..., ValueError)` catches,
skipping the whole row. -/

/-- C2 counterexample: a row that is perfectly parsable except for
`latency = "abc"` is NOT loaded (the claim says it would be loaded with
`latency = 0`). -/
theorem C2_unparsable_skips_row :
    parse_traces
      [{ emptyRow with
          input := .ok [⟨some "human", .str "hi"⟩]
          latency := some "abc" }]
      = [] := by
  decide

/-- C2 (amended): numeric fields fall back to zero when the source value is
missing or empty (floats for `latency`/`total_cost`, integers for the token
and error counts) and such rows are still loaded; but a non-empty
unparsable value raises `ValueError` and the whole row is skipped. -/
theorem C2_numeric_defaults :
    (coerceFloat none = some 0 ∧ coerceFloat (some "") = some 0 ∧
     coerceInt none = some 0 ∧ coerceInt (some "") = some 0) ∧
    (∀ (r : Row) (t : Trace), parseRow r = some t →
      coerceFloat r.latency = some t.latency ∧
      coerceInt r.inputTokens = some t.input_tokens ∧
      coerceInt r.outputTokens = some t.output_tokens ∧
      coerceFloat r.totalCost = some t.total_cost ∧
      coerceInt r.errorCount = some t.error_count) ∧
    (∀ r : Row,
      coerceFloat r.latency = none ∨ coerceInt r.inputTokens = none ∨
      coerceInt r.outputTokens = none ∨ coerceFloat r.totalCost = none ∨
      coerceInt r.errorCount = none → parseRow r = none) := by
  refine ⟨⟨rfl, rfl, rfl, rfl⟩, ?_, ?_⟩
  · intro r t hp
    obtain ⟨inMsgs, outMsgs, lat, it, ot, tc, ec, _, _, hlat, hit, hot, htc, hec, _, ht⟩ :=
      parseRow_some r t hp
    subst ht
    exact ⟨hlat, hit, hot, htc, hec⟩
  · intro r h
    by_contra hne
    rcases Option.ne_none_iff_exists'.mp hne with ⟨t, hp⟩
    obtain ⟨inMsgs, outMsgs, lat, it, ot, tc, ec, _, _, hlat, hit, hot, htc, hec, _, _⟩ :=
      parseRow_some r t hp
    rcases h with h | h | h | h | h <;> simp_all

/-- Witness for C2 (amended): a row whose numeric columns are absent or
empty loads with all-zero numeric fields. -/
def rC2 : Row :=
  { emptyRow with
    input := .ok [⟨some "human", .str "hi"⟩]
    latency := some "" }

def tC2 : Trace :=
  { tC1 with conversation := [⟨"human", "hi"⟩] }

theorem C2_numeric_defaults_witness :
    coerceFloat rC2.latency = some (tC2.latency) := by
  have h := (C2_numeric_defaults.2.1) rC2 tC2 (by decide)
  exact h.1

/-! ## C3 — the analyze merge is a frame-respecting overwrite -/

/-- C3: merging an analysis run for category `c1` sets `scores[c1]` and
`analysis[c1]` (overwriting) exactly on traces whose id appears in the
accumulated result list, and changes nothing else: any other category `c2`
and every other field of every trace are untouched, and a trace whose id
does not appear is returned identically. -/
theorem C3_merge_frame (ts : List Trace) (c1 c2 : String) (all : List AResult)
    (t : Trace) (h12 : c2 ≠ c1) :
    merge_results ts c1 all = ts.map (mergeT c1 (analysis_map all)) ∧
    ((∃ a, getk (analysis_map all) t.id = some a) ↔
      t.id ∈ all.map (fun a => a.trace_id)) ∧
    (∀ a, getk (analysis_map all) t.id = some a →
      getk (mergeT c1 (analysis_map all) t).scores c1 = some a.score ∧
      getk (mergeT c1 (analysis_map all) t).analysis c1 = some a.reason) ∧
    (getk (analysis_map all) t.id = none → mergeT c1 (analysis_map all) t = t) ∧
    getk (mergeT c1 (analysis_map all) t).scores c2 = getk t.scores c2 ∧
    getk (mergeT c1 (analysis_map all) t).analysis c2 = getk t.analysis c2 ∧
    (mergeT c1 (analysis_map all) t).id = t.id ∧
    (mergeT c1 (analysis_map all) t).timestamp = t.timestamp ∧
    (mergeT c1 (analysis_map all) t).name = t.name ∧
    (mergeT c1 (analysis_map all) t).session_id = t.session_id ∧
    (mergeT c1 (analysis_map all) t).user_id = t.user_id ∧
    (mergeT c1 (analysis_map all) t).conversation = t.conversation ∧
    (mergeT c1 (analysis_map all) t).latency = t.latency ∧
    (mergeT c1 (analysis_map all) t).input_tokens = t.input_tokens ∧
    (mergeT c1 (analysis_map all) t).output_tokens = t.output_tokens ∧
    (mergeT c1 (analysis_map all) t).total_cost = t.total_cost ∧
    (mergeT c1 (analysis_map all) t).error_count = t.error_count := by
  refine ⟨rfl, ?_, ?_, ?_, ?_⟩
  · rw [getk_analysis_map]
    constructor
    · rintro ⟨a, ha⟩
      have hne : (all.filter (fun a => a.trace_id = t.id)) ≠ [] := by
        intro hnil
        rw [hnil] at ha
        simp at ha
      rcases List.exists_mem_of_ne_nil _ hne with ⟨x, hx⟩
      rcases List.mem_filter.mp hx with ⟨hmem, hpred⟩
      exact List.mem_map.mpr ⟨x, hmem, by simpa using hpred⟩
    · intro hmem
      rcases List.mem_map.mp hmem with ⟨x, hx, hxk⟩
      have hne : (all.filter (fun a => a.trace_id = t.id)) ≠ [] := by
        intro hnil
        have := List.filter_eq_nil_iff.mp hnil x hx
        simp [hxk] at this
      rcases Option.ne_none_iff_exists'.mp (fun hn => hne (List.getLast?_eq_none_iff.mp hn))
        with ⟨a, ha⟩
      exact ⟨a, ha⟩
  · intro a ha
    simp [mergeT, ha, getk_setk_self]
  · intro ha
    simp [mergeT, ha]
  · rcases ha : getk (analysis_map all) t.id with _ | a <;>
      simp [mergeT, ha, getk_setk_ne _ _ _ _ h12]

def sampleResult : AResult := { trace_id := "", score := 80, reason := "great" }

/-- Witness for C3 at concrete inputs: merging a `showcase` run onto `tC1`
sets `scores["showcase"]` and leaves `scores["product_features"]` alone. -/
theorem C3_merge_frame_witness :
    getk (mergeT "showcase" (analysis_map [sampleResult]) tC1).scores "showcase" =
      some 80 ∧
    getk (mergeT "showcase" (analysis_map [sampleResult]) tC1).scores "product_features" =
      getk tC1.scores "product_features" := by
  have h := C3_merge_frame [tC1] "showcase" "product_features" [sampleResult] tC1 (by decide)
  exact ⟨(h.2.2.1 sampleResult (by decide)).1, h.2.2.2.2.1⟩

/-! ## C10 — on duplicate trace ids in the result list, the last entry wins -/

/-- C10: the dict comprehension keyed by `trace_id` keeps the LAST entry of
the accumulated result list for each id, so the merge writes the final
occurrence's score/reason and earlier occurrences have no effect. -/
theorem C10_duplicate_last_wins :
    (∀ (all : List AResult) (k : String),
      getk (analysis_map all) k = (all.filter (fun a => a.trace_id = k)).getLast?) ∧
    (∀ (all : List AResult) (cat : String) (t : Trace) (a : AResult),
      (all.filter (fun x => x.trace_id = t.id)).getLast? = some a →
      getk (mergeT cat (analysis_map all) t).scores cat = some a.score ∧
      getk (mergeT cat (analysis_map all) t).analysis cat = some a.reason) := by
  refine ⟨getk_analysis_map, ?_⟩
  intro all cat t a ha
  have hm : getk (analysis_map all) t.id = some a := by
    rw [getk_analysis_map, ha]
  simp [mergeT, hm, getk_setk_self]

/-! ## C4 — gating of the verification search call

The claim misses one gate: the code only issues the search call when the
query built from the extracted fields is non-empty
(`if search_query:`). -/

/-- C4 counterexample: a classification with score 50 and
`has_connection = true` but with no extracted topic/region/program/partner
builds an empty query and issues NO verification call (the claim requires
exactly one). -/
theorem C4_empty_query_no_search :
    (analyze_wri_trace "t1"
      (some ⟨some 50, true, none, none, none, none, none⟩)
      (fun _ _ _ => ⟨true, some "http://example.org", none, none⟩)).2 = 0 := by
  decide

/-- C4 (amended): a classification with score below 50 or without the
connection flag never triggers a verification search; one with score ≥ 50,
the connection flag set AND a non-empty search query (at least one of
topic/region/program/partner-type extracted) triggers exactly one. -/
theorem C4_verification_gate (tid : String) (a : WriAnalysis)
    (search : String → String → String → Evidence) :
    (a.score.getD 0 < 50 ∨ a.has_connection = false →
      (analyze_wri_trace tid (some a) search).2 = 0) ∧
    (50 ≤ a.score.getD 0 → a.has_connection = true → searchQueryOf a ≠ "" →
      (analyze_wri_trace tid (some a) search).2 = 1) := by
  constructor
  · intro h
    have hcond : ¬(50 ≤ a.score.getD 0 ∧ a.has_connection = true) := by
      rcases h with h | h
      · exact fun hh => absurd hh.1 (not_le.mpr h)
      · exact fun hh => by rw [h] at hh; exact Bool.false_ne_true hh.2
    simp only [analyze_wri_trace]
    rw [if_neg hcond]
  · intro h1 h2 h3
    simp only [analyze_wri_trace]
    rw [if_pos ⟨h1, h2⟩, if_pos h3]
    split <;> split <;> rfl

/-- Witness for C4 (amended): score 49 → no call; score 50 with a topic and
region → exactly one call. -/
theorem C4_verification_gate_witness :
    (analyze_wri_trace "t1"
      (some ⟨some 49, true, some "palm oil", some "Indonesia", none, none, none⟩)
      (fun _ _ _ => ⟨false, none, none, none⟩)).2 = 0 ∧
    (analyze_wri_trace "t2"
      (some ⟨some 50, true, some "palm oil", some "Indonesia", none, none, none⟩)
      (fun _ _ _ => ⟨false, none, none, none⟩)).2 = 1 :=
  ⟨(C4_verification_gate "t1" ⟨some 49, true, some "palm oil", some "Indonesia",
      none, none, none⟩ (fun _ _ _ => ⟨false, none, none, none⟩)).1 (Or.inl (by decide)),
   (C4_verification_gate "t2" ⟨some 50, true, some "palm oil", some "Indonesia",
      none, none, none⟩ (fun _ _ _ => ⟨false, none, none, none⟩)).2
      (by decide) (by decide) (by decide)⟩

/-! ## Lemmas on `leadsList`, `hasOcc` and `pySplit` -/

theorem leadsList_append_self (sep b : List Char) :
    leadsList sep (sep ++ b) = true := by
  induction sep with
  | nil => rfl
  | cons c cs ih => simp [leadsList, ih]

theorem leads_trans (x y z : List Char) (h1 : leadsList x y = true)
    (h2 : leadsList y z = true) : leadsList x z = true := by
  induction x generalizing y z with
  | nil => rfl
  | cons c cs ih =>
    cases y with
    | nil => simp [leadsList] at h1
    | cons d ys =>
      cases z with
      | nil => simp [leadsList] at h2
      | cons e zs =>
        simp only [leadsList, Bool.and_eq_true, decide_eq_true_eq] at h1 h2 ⊢
        exact ⟨h1.1.trans h2.1, ih ys zs h1.2 h2.2⟩

theorem leadsList_iff_take (sep s : List Char) :
    leadsList sep s = true ↔ sep.length ≤ s.length ∧ s.take sep.length = sep := by
  induction sep generalizing s with
  | nil => simp [leadsList]
  | cons c cs ih =>
    cases s with
    | nil => simp [leadsList]
    | cons d ds =>
      simp only [leadsList, Bool.and_eq_true, decide_eq_true_eq, List.length_cons,
        Nat.succ_le_succ_iff, List.take_succ_cons, List.cons.injEq]
      rw [ih ds]
      constructor
      · rintro ⟨h1, h2, h3⟩; exact ⟨h2, h1.symm, h3⟩
      · rintro ⟨h1, h2, h3⟩; exact ⟨h2.symm, h1, h3⟩

theorem hasOcc_of_leads (sep s : List Char) (h : leadsList sep s = true) :
    hasOcc sep s = true := by
  cases s with
  | nil =>
    cases sep with
    | nil => rfl
    | cons c cs => simp [leadsList] at h
  | cons c rest => simp [hasOcc, h]

theorem hasOcc_tail_false (sep : List Char) (c : Char) (t : List Char)
    (h : hasOcc sep (c :: t) = false) : hasOcc sep t = false := by
  simp only [hasOcc, Bool.or_eq_false_iff] at h
  exact h.2

theorem hasOcc_mono (spre sep s : List Char) (hl : leadsList spre sep = true)
    (ho : hasOcc sep s = true) : hasOcc spre s = true := by
  induction s with
  | nil =>
    simp only [hasOcc, List.isEmpty_iff] at ho
    subst ho
    cases spre with
    | nil => rfl
    | cons c cs => simp [leadsList] at hl
  | cons c t ih =>
    simp only [hasOcc, Bool.or_eq_true] at ho ⊢
    rcases ho with ho | ho
    · exact Or.inl (leads_trans spre sep (c :: t) hl ho)
    · exact Or.inr (ih ho)

theorem leads_cons_ne (sep : List Char) (c : Char) (t : List Char)
    (hsep : sep ≠ []) (hc : c ∉ sep) : leadsList sep (c :: t) = false := by
  cases sep with
  | nil => exact absurd rfl hsep
  | cons d cs =>
    have hdc : d ≠ c := fun h => hc (h ▸ List.mem_cons_self d cs)
    simp [leadsList, hdc]

theorem hasOcc_cons_ne (sep : List Char) (c : Char) (t : List Char)
    (hsep : sep ≠ []) (hc : c ∉ sep) : hasOcc sep (c :: t) = hasOcc sep t := by
  simp [hasOcc, leads_cons_ne sep c t hsep hc]

theorem leadsList_append_mid (sep : List Char) (c : Char) (t u : List Char)
    (hc : c ∉ sep) : leadsList sep (t ++ c :: u) = leadsList sep t := by
  induction sep generalizing t with
  | nil => rfl
  | cons d cs ih =>
    cases t with
    | nil =>
      have hdc : d ≠ c := fun h => hc (h ▸ List.mem_cons_self d cs)
      simp [leadsList, hdc]
    | cons e ts =>
      have hccs : c ∉ cs := fun h => hc (List.mem_cons_of_mem d h)
      simp [leadsList, ih ts hccs]

theorem hasOcc_append_mid (sep : List Char) (c : Char) (t u : List Char)
    (hc : c ∉ sep) : hasOcc sep (t ++ c :: u) = (hasOcc sep t || hasOcc sep u) := by
  induction t with
  | nil =>
    cases sep with
    | nil => simp [hasOcc, leadsList]
    | cons d cs =>
      have hdc : d ≠ c := fun h => hc (h ▸ List.mem_cons_self d cs)
      simp [hasOcc, leadsList, hdc]
  | cons e ts ih =>
    have hmid := leadsList_append_mid sep c (e :: ts) u hc
    simp only [List.cons_append] at hmid ⊢
    simp only [hasOcc, ih, hmid, Bool.or_assoc]

theorem pySplitF_fuel (sep : List Char) (hsep : sep ≠ []) :
    ∀ (n m : Nat) (s : List Char), s.length < n → s.length < m →
      pySplitF sep n s = pySplitF sep m s := by
  intro n
  induction n with
  | zero => intro m s h1 _; exact absurd h1 (Nat.not_lt_zero _)
  | succ n ih =>
    intro m s h1 h2
    cases m with
    | zero => exact absurd h2 (Nat.not_lt_zero _)
    | succ m =>
      cases s with
      | nil => rfl
      | cons c rest =>
        have hlsep : 1 ≤ sep.length := List.length_pos.mpr hsep
        simp only [pySplitF]
        by_cases hld : leadsList sep (c :: rest) = true
        · rw [if_pos hld, if_pos hld]
          have hd1 : ((c :: rest).drop sep.length).length < n := by
            rw [List.length_drop]
            simp only [List.length_cons] at h1 ⊢
            omega
          have hd2 : ((c :: rest).drop sep.length).length < m := by
            rw [List.length_drop]
            simp only [List.length_cons] at h2 ⊢
            omega
          rw [ih m _ hd1 hd2]
        · rw [if_neg hld, if_neg hld]
          have hr1 : rest.length < n := by
            simp only [List.length_cons] at h1; omega
          have hr2 : rest.length < m := by
            simp only [List.length_cons] at h2; omega
          rw [ih m rest hr1 hr2]

theorem pySplit_nil (sep : List Char) (hsep : sep ≠ []) : pySplit sep [] = [[]] := by
  simp [pySplit, hsep, pySplitF]

theorem pySplit_cons_pos (sep : List Char) (c : Char) (rest : List Char)
    (hsep : sep ≠ []) (h : leadsList sep (c :: rest) = true) :
    pySplit sep (c :: rest) = [] :: pySplit sep ((c :: rest).drop sep.length) := by
  have hlsep : 1 ≤ sep.length := List.length_pos.mpr hsep
  simp only [pySplit, if_neg hsep]
  simp only [pySplitF, if_pos h]
  congr 1
  apply pySplitF_fuel sep hsep
  · rw [List.length_drop]
    simp only [List.length_cons]
    omega
  · omega

theorem pySplit_cons_neg (sep : List Char) (c : Char) (rest : List Char)
    (hsep : sep ≠ []) (h : leadsList sep (c :: rest) = false) :
    pySplit sep (c :: rest) =
      match pySplit sep rest with
      | [] => [c :: rest]
      | seg :: segs => (c :: seg) :: segs := by
  have h' : ¬leadsList sep (c :: rest) = true := by rw [h]; exact Bool.false_ne_true
  simp only [pySplit, if_neg hsep]
  simp only [pySplitF, if_neg h']
  simp only [List.length_cons]

theorem hasOcc_nil_of_sep_nil (s : List Char) : hasOcc [] s = true := by
  cases s <;> simp [hasOcc, leadsList]

theorem pySplit_no_occ (sep s : List Char) (h : hasOcc sep s = false) :
    pySplit sep s = [s] := by
  have hsep : sep ≠ [] := by
    intro hs
    rw [hs, hasOcc_nil_of_sep_nil s] at h
    exact Bool.noConfusion h
  induction s with
  | nil => exact pySplit_nil sep hsep
  | cons c rest ih =>
    have hld : leadsList sep (c :: rest) = false := by
      rcases hv : leadsList sep (c :: rest) with _ | _
      · rfl
      · rw [← h, hasOcc, hv, Bool.true_or]
    rw [pySplit_cons_neg sep c rest hsep hld, ih (hasOcc_tail_false sep c rest h)]

theorem leads_init_of_leads_append (sep : List Char) (hsep : sep ≠ [])
    (a : List Char) (ha : a ≠ []) (b : List Char)
    (h : leadsList sep (a ++ sep ++ b) = true) :
    leadsList sep (a ++ sep.dropLast) = true := by
  have hlsep : 1 ≤ sep.length := List.length_pos.mpr hsep
  have hla : 1 ≤ a.length := List.length_pos.mpr ha
  have h1 := (leadsList_iff_take sep (a ++ sep ++ b)).mp h
  have hlen : sep.length ≤ (a ++ sep.dropLast).length := by
    rw [List.length_append, List.length_dropLast]
    omega
  have hs : a ++ sep ++ b = (a ++ sep.dropLast) ++ ([sep.getLast hsep] ++ b) := by
    conv_lhs =>
      rw [show sep = sep.dropLast ++ [sep.getLast hsep] from
        (List.dropLast_append_getLast hsep).symm]
    simp [List.append_assoc]
  have htake : (a ++ sep ++ b).take sep.length = (a ++ sep.dropLast).take sep.length := by
    rw [hs, List.take_append_of_le_length hlen]
  rw [leadsList_iff_take]
  exact ⟨hlen, by rw [← htake, h1.2]⟩

theorem pySplit_append_sep (sep a b : List Char)
    (hb : hasOcc sep (a ++ sep.dropLast) = false) :
    pySplit sep (a ++ sep ++ b) = a :: pySplit sep b := by
  have hsep : sep ≠ [] := by
    intro hs
    rw [hs, hasOcc_nil_of_sep_nil _] at hb
    exact Bool.noConfusion hb
  induction a with
  | nil =>
    rcases hse : sep with _ | ⟨c0, cs⟩
    · exact absurd hse hsep
    · subst hse
      simp only [List.nil_append, List.cons_append]
      rw [pySplit_cons_pos (c0 :: cs) c0 (cs ++ b) hsep
        (by simpa using leadsList_append_self (c0 :: cs) b)]
      congr 1
      congr 1
      simp [List.length_cons, List.drop_left' (by simp : (cs : List Char).length = cs.length)]
  | cons c a' ih =>
    have hld : leadsList sep ((c :: a') ++ sep ++ b) = false := by
      rcases hv : leadsList sep ((c :: a') ++ sep ++ b) with _ | _
      · rfl
      · have := leads_init_of_leads_append sep hsep (c :: a') (by simp) b hv
        have habs := hasOcc_of_leads sep _ this
        rw [habs] at hb
        exact Bool.noConfusion hb
    have hb' : hasOcc sep (a' ++ sep.dropLast) = false := by
      have := hb
      simp only [List.cons_append] at this
      exact hasOcc_tail_false sep c _ this
    simp only [List.cons_append] at hld ⊢
    rw [pySplit_cons_neg sep c (a' ++ sep ++ b) hsep (by simpa using hld)]
    have := ih hb'
    simp only [List.cons_append] at this
    rw [this]

/-! ## Lemmas on `pyStrip` -/

theorem dropTrail_append_ws (c : Char) (l : List Char) (hc : Char.isWhitespace c = true) :
    dropTrail Char.isWhitespace (l ++ [c]) = dropTrail Char.isWhitespace l := by
  simp [dropTrail, List.dropWhile_cons, hc]

theorem pyStrip_cons_ws (c : Char) (s : List Char) (hc : Char.isWhitespace c = true) :
    pyStrip (c :: s) = pyStrip s := by
  simp [pyStrip, List.dropWhile_cons, hc]

theorem pyStrip_append_ws (c : Char) (s : List Char) (hc : Char.isWhitespace c = true) :
    pyStrip (s ++ [c]) = pyStrip s := by
  induction s with
  | nil => simp [pyStrip, List.dropWhile_cons, hc, dropTrail]
  | cons d s' ih =>
    rcases hd : Char.isWhitespace d with _ | _
    · simp only [pyStrip, List.cons_append, List.dropWhile_cons, hd, Bool.false_eq_true,
        if_false]
      exact dropTrail_append_ws c (d :: s') hc
    · rw [List.cons_append, pyStrip_cons_ws d _ hd, pyStrip_cons_ws d _ hd, ih]

/-! ## C5 — the trace-list query: filter, descending sort, stability, limit -/

theorem insertDesc_perm (key : Trace → Int) (x : Trace) (l : List Trace) :
    List.Perm (insertDesc key x l) (x :: l) := by
  induction l with
  | nil => exact List.Perm.refl _
  | cons y ys ih =>
    unfold insertDesc
    by_cases h : key x ≤ key y
    · rw [if_pos h]
      exact (ih.cons y).trans (List.Perm.swap x y ys)
    · rw [if_neg h]

theorem foldl_insertDesc_perm (key : Trace → Int) (l : List Trace) :
    ∀ acc : List Trace,
      List.Perm (l.foldl (fun acc x => insertDesc key x acc) acc) (acc ++ l) := by
  induction l with
  | nil => intro acc; simp
  | cons x xs ih =>
    intro acc
    have h1 : (x :: xs).foldl (fun acc x => insertDesc key x acc) acc
        = xs.foldl (fun acc x => insertDesc key x acc) (insertDesc key x acc) := rfl
    rw [h1]
    exact ((ih _).trans ((insertDesc_perm key x acc).append_right xs)).trans
      List.perm_middle.symm

theorem sortDescBy_perm (key : Trace → Int) (l : List Trace) :
    List.Perm (sortDescBy key l) l := by
  simpa using foldl_insertDesc_perm key l []

theorem insertDesc_pairwise (key : Trace → Int) (x : Trace) (l : List Trace)
    (hl : l.Pairwise (fun a b => key b ≤ key a)) :
    (insertDesc key x l).Pairwise (fun a b => key b ≤ key a) := by
  induction l with
  | nil => simp [insertDesc]
  | cons y ys ih =>
    rcases List.pairwise_cons.mp hl with ⟨hy, hys⟩
    unfold insertDesc
    by_cases h : key x ≤ key y
    · rw [if_pos h]
      refine List.pairwise_cons.mpr ⟨?_, ih hys⟩
      intro z hz
      rcases List.mem_cons.mp ((insertDesc_perm key x ys).mem_iff.mp hz) with hz1 | hz1
      · rw [hz1]; exact h
      · exact hy z hz1
    · rw [if_neg h]
      refine List.pairwise_cons.mpr ⟨?_, hl⟩
      intro z hz
      rcases List.mem_cons.mp hz with hz | hz
      · rw [hz]; exact le_of_lt (not_le.mp h)
      · exact le_trans (hy z hz) (le_of_lt (not_le.mp h))

theorem foldl_insertDesc_pairwise (key : Trace → Int) (l : List Trace) :
    ∀ acc : List Trace, acc.Pairwise (fun a b => key b ≤ key a) →
      (l.foldl (fun acc x => insertDesc key x acc) acc).Pairwise
        (fun a b => key b ≤ key a) := by
  induction l with
  | nil => intro acc hacc; exact hacc
  | cons x xs ih => intro acc hacc; exact ih _ (insertDesc_pairwise key x acc hacc)

theorem sortDescBy_pairwise (key : Trace → Int) (l : List Trace) :
    (sortDescBy key l).Pairwise (fun a b => key b ≤ key a) :=
  foldl_insertDesc_pairwise key l [] (List.Pairwise.nil)

theorem insertDesc_filter_key (key : Trace → Int) (x : Trace) (l : List Trace) (v : Int)
    (hl : l.Pairwise (fun a b => key b ≤ key a)) :
    (insertDesc key x l).filter (fun y => key y = v) =
      if key x = v then l.filter (fun y => key y = v) ++ [x]
      else l.filter (fun y => key y = v) := by
  induction l with
  | nil => by_cases h : key x = v <;> simp [insertDesc, List.filter_cons, h]
  | cons y ys ih =>
    rcases List.pairwise_cons.mp hl with ⟨hy, hys⟩
    unfold insertDesc
    by_cases h : key x ≤ key y
    · rw [if_pos h]
      rw [List.filter_cons, List.filter_cons, ih hys]
      by_cases hx : key x = v <;> by_cases hyv : key y = v <;> simp [hx, hyv]
    · rw [if_neg h]
      have hnil : (y :: ys).filter (fun z => key z = v) = [] ∨ ¬key x = v := by
        by_cases hx : key x = v
        · left
          rw [List.filter_eq_nil_iff]
          intro z hz
          have hzy : key z ≤ key y := by
            rcases List.mem_cons.mp hz with hz | hz
            · rw [hz]
            · exact hy z hz
          have : key z < key x := lt_of_le_of_lt hzy (not_le.mp h)
          rw [hx] at this
          simp [ne_of_lt this]
        · right; exact hx
      rcases hnil with hnil | hx
      · by_cases hx : key x = v
        · rw [List.filter_cons]
          simp [hx, hnil]
        · rw [List.filter_cons]
          simp [hx]
      · rw [List.filter_cons]
        simp [hx]

theorem foldl_insertDesc_filter (key : Trace → Int) (l : List Trace) (v : Int) :
    ∀ acc : List Trace, acc.Pairwise (fun a b => key b ≤ key a) →
      (l.foldl (fun acc x => insertDesc key x acc) acc).filter (fun y => key y = v) =
        acc.filter (fun y => key y = v) ++ l.filter (fun y => key y = v) := by
  induction l with
  | nil => intro acc _; simp
  | cons x xs ih =>
    intro acc hacc
    have step := ih (insertDesc key x acc) (insertDesc_pairwise key x acc hacc)
    calc ((x :: xs).foldl (fun acc x => insertDesc key x acc) acc).filter
          (fun y => key y = v)
        = (xs.foldl (fun acc x => insertDesc key x acc)
            (insertDesc key x acc)).filter (fun y => key y = v) := rfl
      _ = (insertDesc key x acc).filter (fun y => key y = v) ++
            xs.filter (fun y => key y = v) := step
      _ = acc.filter (fun y => key y = v) ++ (x :: xs).filter (fun y => key y = v) := by
          rw [insertDesc_filter_key key x acc v hacc, List.filter_cons]
          by_cases hx : key x = v <;> simp [hx]

/-- Stability of the modelled sort: for each key value, the sorted list
lists the elements carrying that key in their original relative order. -/
theorem sortDescBy_stable (key : Trace → Int) (l : List Trace) (v : Int) :
    (sortDescBy key l).filter (fun y => key y = v) = l.filter (fun y => key y = v) := by
  simpa using foldl_insertDesc_filter key l v [] (List.Pairwise.nil)

/-- C5 (amended): for a valid category, the filtered trace list contains
exactly the traces carrying a score for that category, sorted descending by
that score, with equal-score traces in their original load order; a
POSITIVE limit returns the first `limit` elements of that ordering, while a
limit of `0` is falsy in `if limit:` and is ignored (no truncation). -/
theorem C5_filter_sort (ts : List Trace) (c : String) (hc : c ∈ INTEREST_CATEGORIES) :
    get_traces ts (some c) none =
      sortDescBy (scoreKey c) (ts.filter (fun t => (getk t.scores c).isSome)) ∧
    (∀ t, t ∈ get_traces ts (some c) none ↔
      t ∈ ts ∧ (getk t.scores c).isSome = true) ∧
    (get_traces ts (some c) none).Pairwise (fun a b => scoreKey c b ≤ scoreKey c a) ∧
    (∀ v : Int, (get_traces ts (some c) none).filter (fun t => scoreKey c t = v) =
      (ts.filter (fun t => (getk t.scores c).isSome)).filter (fun t => scoreKey c t = v)) ∧
    (∀ n : Int, 0 < n → get_traces ts (some c) (some n) =
      (get_traces ts (some c) none).take n.toNat) ∧
    get_traces ts (some c) (some 0) = get_traces ts (some c) none := by
  have hbase : get_traces ts (some c) none =
      sortDescBy (scoreKey c) (ts.filter (fun t => (getk t.scores c).isSome)) := by
    simp [get_traces, hc]
  refine ⟨hbase, ?_, ?_, ?_, ?_, ?_⟩
  · intro t
    rw [hbase, (sortDescBy_perm _ _).mem_iff, List.mem_filter]
  · rw [hbase]
    exact sortDescBy_pairwise _ _
  · intro v
    rw [hbase]
    exact sortDescBy_stable _ _ v
  · intro n hn
    have hne : n ≠ 0 := ne_of_gt hn
    rw [hbase]
    simp [get_traces, hc, hne, pySliceTo, le_of_lt hn]
  · simp [get_traces, hc]

def tA : Trace := { tC1 with id := "a", scores := [("showcase", 5)] }

def tB : Trace := { tC1 with id := "b", scores := [("showcase", 7)] }

/-- C5 counterexample: with `limit = 0` the endpoint returns the full
sorted list (here both traces), not the first 0 elements — `if limit:`
treats a zero limit as "no limit". -/
theorem C5_zero_limit_ignored :
    get_traces [tA, tB] (some "showcase") (some 0) = [tB, tA] := by
  decide

/-- Witness for C5 (amended) at concrete inputs. -/
theorem C5_filter_sort_witness :
    get_traces [tA, tB] (some "showcase") (some 1) =
      (get_traces [tA, tB] (some "showcase") none).take ((1 : Int)).toNat :=
  (C5_filter_sort [tA, tB] "showcase" (by decide)).2.2.2.2.1 1 (by decide)

/-! ## C6 — fence-stripping round trip

The claim quantifies over every inner JSON payload.  It fails for payloads
that themselves contain a triple backtick (legal inside a JSON string):
`split` then cuts inside the payload, and the fenced and bare variants are
cut differently.  For payloads free of triple backticks the round trip
holds exactly. -/

/-- C6 counterexample: for the valid JSON payload `"a``` 1 ```b"` (a JSON
string containing backticks) the bare variant cleans to `1` — which parses
to the JSON value 1 — while the fenced variant cleans to `"a` — an
unterminated string on which `json.loads` raises.  The two parse
differently. -/
theorem C6_backtick_payload_differs :
    cleanResponse ("```json\n".toList ++ "\"a``` 1 ```b\"".toList ++ "\n```".toList) =
      "\"a".toList ∧
    cleanResponse ("\"a``` 1 ```b\"".toList) = "1".toList ∧
    jsonScalar ("\"a".toList) = none ∧
    jsonScalar ("1".toList) = some (.num 1) := by
  refine ⟨by decide, by decide, by decide, by decide⟩

/-- C6 (amended): for every inner payload containing no triple backtick,
the cleanup applied to the ```json-fenced variant and to the bare variant
produce the SAME cleaned text, hence the same parsed JSON value. -/
theorem C6_fence_roundtrip (p : List Char)
    (h : hasOcc tickFence p = false) :
    cleanResponse ("```json\n".toList ++ p ++ "\n```".toList) = cleanResponse p := by
  have h4J : leadsList ("```j".toList) jsonFence = true := by decide
  have h34 : leadsList tickFence ("```j".toList) = true := by decide
  have h3J : leadsList tickFence jsonFence = true := by decide
  -- p contains no "```j"
  have h4 : hasOcc ("```j".toList) p = false := by
    rcases hv : hasOcc ("```j".toList) p with _ | _
    · rfl
    · rw [hasOcc_mono _ _ _ h34 hv] at h
      exact Bool.noConfusion h
  -- p contains no "```json"
  have hJ : hasOcc jsonFence p = false := by
    rcases hv : hasOcc jsonFence p with _ | _
    · rfl
    · rw [hasOcc_mono _ _ _ h3J hv] at h
      exact Bool.noConfusion h
  -- the bare side cleans to the stripped payload
  have hbare : cleanResponse p = pyStrip p := by
    simp only [cleanResponse]
    rw [pySplit_no_occ _ _ hJ, pySplit_no_occ _ _ h]
    simp
  -- the fenced text decomposes after the opening fence
  have hdec1 : ("```json\n".toList : List Char) = jsonFence ++ ['\n'] := by decide
  have hdec2 : ("\n```".toList : List Char) = '\n' :: tickFence := by decide
  have hFeq : "```json\n".toList ++ p ++ "\n```".toList =
      [] ++ jsonFence ++ ('\n' :: (p ++ '\n' :: tickFence)) := by
    rw [hdec1, hdec2]
    simp [List.append_assoc]
  -- no occurrence of "```json" in the remainder after the opening fence
  have hrest4 : hasOcc ("```j".toList) ('\n' :: (p ++ '\n' :: tickFence)) = false := by
    rw [hasOcc_cons_ne _ _ _ (by decide) (by decide),
      hasOcc_append_mid _ '\n' p tickFence (by decide), h4]
    decide
  have hrestJ : hasOcc jsonFence ('\n' :: (p ++ '\n' :: tickFence)) = false := by
    rcases hv : hasOcc jsonFence ('\n' :: (p ++ '\n' :: tickFence)) with _ | _
    · rfl
    · rw [hasOcc_mono _ _ _ h4J hv] at hrest4
      exact Bool.noConfusion hrest4
  -- split on "```json": exactly the opening fence matches
  have hsplitJ : pySplit jsonFence ("```json\n".toList ++ p ++ "\n```".toList) =
      [[], '\n' :: (p ++ '\n' :: tickFence)] := by
    rw [hFeq, pySplit_append_sep _ _ _ (by decide), pySplit_no_occ _ _ hrestJ]
  -- the remainder decomposes before the closing fence
  have hrest_eq : '\n' :: (p ++ '\n' :: tickFence) =
      ('\n' :: (p ++ ['\n'])) ++ tickFence ++ [] := by
    simp [List.append_assoc]
  -- split on "```": exactly the closing fence matches
  have hocc_a1 : hasOcc tickFence (('\n' :: (p ++ ['\n'])) ++ tickFence.dropLast) = false := by
    have hdl : (tickFence : List Char).dropLast = ['`', '`'] := by decide
    rw [hdl]
    have hshape : ('\n' :: (p ++ ['\n'])) ++ ['`', '`'] =
        '\n' :: (p ++ '\n' :: ['`', '`']) := by
      simp [List.append_assoc]
    rw [hshape, hasOcc_cons_ne _ _ _ (by decide) (by decide),
      hasOcc_append_mid _ '\n' p ['`', '`'] (by decide), h]
    decide
  have hsplit3 : pySplit tickFence ('\n' :: (p ++ '\n' :: tickFence)) =
      [('\n' :: (p ++ ['\n'])), []] := by
    rw [hrest_eq, pySplit_append_sep _ _ _ hocc_a1, pySplit_nil _ (by decide)]
  -- assemble the fenced side
  have hws : Char.isWhitespace '\n' = true := by decide
  calc cleanResponse ("```json\n".toList ++ p ++ "\n```".toList)
      = pyStrip ('\n' :: (p ++ ['\n'])) := by
        simp only [cleanResponse, hsplitJ]
        simp [hsplit3]
    _ = pyStrip p := by
        rw [pyStrip_cons_ws _ _ hws, pyStrip_append_ws _ _ hws]
    _ = cleanResponse p := hbare.symm

/-- Witness for C6 (amended) at a concrete fence-free payload. -/
theorem C6_fence_roundtrip_witness :
    cleanResponse ("```json\n".toList ++ "[1, 2]".toList ++ "\n```".toList) =
      cleanResponse ("[1, 2]".toList) :=
  C6_fence_roundtrip ("[1, 2]".toList) (by decide)

/-! ## C7 — error containment in the analyze pipelines -/

theorem runBatches_segment (decode : List Char → Option AnalysesPayload)
    (replies : Nat → LLMReply) :
    ∀ (bs : List (List Trace)) (i0 i : Nat), i < bs.length →
      ∃ pre post, runBatches decode replies i0 bs =
        pre ++ analyze_trace_batch decode (replies (i0 + i)) ++ post := by
  intro bs
  induction bs with
  | nil => intro i0 i hi; simp at hi
  | cons b bs ih =>
    intro i0 i hi
    cases i with
    | zero =>
      exact ⟨[], runBatches decode replies (i0 + 1) bs, by simp [runBatches]⟩
    | succ j =>
      have hj : j < bs.length := Nat.lt_of_succ_lt_succ hi
      obtain ⟨pre, post, hpp⟩ := ih (i0 + 1) j hj
      refine ⟨analyze_trace_batch decode (replies i0) ++ pre, post, ?_⟩
      have hidx : i0 + (j + 1) = (i0 + 1) + j := by omega
      rw [hidx]
      simp [runBatches, hpp]

/-- C7: an LLM-call failure or an undecodable reply makes the generic
scorer return `[]`; in the orchestration loop every batch contributes its
own segment to the accumulated results regardless of the other batches'
outcomes; in the WRI pipeline a failed trace degrades to
`{trace_id, 0, "Analysis error"}` and the batch still produces exactly one
result per trace, each depending only on its own trace. -/
theorem C7_error_containment :
    (∀ decode, analyze_trace_batch decode .failure = []) ∧
    (∀ (decode : List Char → Option AnalysesPayload) (s : List Char),
      decode (cleanResponse s) = none → analyze_trace_batch decode (.text s) = []) ∧
    (∀ decode replies (ts : List Trace) (i : Nat), i < (chunkBatches ts).length →
      ∃ pre post, analyze_run_generic decode replies ts =
        pre ++ analyze_trace_batch decode (replies i) ++ post) ∧
    (∀ (tid : String) search,
      analyze_wri_trace tid none search =
        ({ trace_id := tid, score := 0, reason := "Analysis error" }, 0)) ∧
    (∀ traces classify search,
      (analyze_wri_connections_batch traces classify search).length = traces.length ∧
      ∀ i : Nat, (analyze_wri_connections_batch traces classify search)[i]? =
        (traces[i]?).map (fun t => (analyze_wri_trace t.id (classify t.id) search).1)) := by
  refine ⟨fun _ => rfl, ?_, ?_, fun _ _ => rfl, ?_⟩
  · intro decode s h
    simp [analyze_trace_batch, h]
  · intro decode replies ts i hi
    have := runBatches_segment decode replies (chunkBatches ts) 0 i hi
    simpa [analyze_run_generic] using this
  · intro traces classify search
    refine ⟨by simp [analyze_wri_connections_batch], ?_⟩
    intro i
    simp [analyze_wri_connections_batch, List.getElem?_map]

/-- Witness for C7 at concrete inputs. -/
theorem C7_error_containment_witness :
    (analyze_trace_batch (fun _ => none) (.text "oops".toList) = []) ∧
    ∃ pre post,
      analyze_run_generic (fun _ => none) (fun _ => .failure) [tC1] =
        pre ++ analyze_trace_batch (fun _ => none) ((fun _ => LLMReply.failure) 0) ++ post :=
  ⟨C7_error_containment.2.1 (fun _ => none) "oops".toList rfl,
   C7_error_containment.2.2.1 (fun _ => none) (fun _ => .failure) [tC1] 0 (by decide)⟩

/-! ## C8 — translation memoization

The claim overlooks the failure path: a failed first request caches
nothing, so the SECOND request for the same id does issue another LLM
call. -/

def tC8 : Trace := { tC1 with id := "t1" }

/-- C8 counterexample: the first request for `"t1"` fails (oracle `none`,
one call issued, nothing cached), and the second request for the same id
issues another LLM call (count 1, not 0 as the claim requires). -/
theorem C8_failed_first_not_memoized :
    (translate_trace [tC8] [] none "t1").2.2 = 1 ∧
    (translate_trace [tC8] (translate_trace [tC8] [] none "t1").2.1
      (some ⟨"Spanish", []⟩) "t1").2.2 = 1 := by
  decide

/-- C8 (amended): after the first SUCCESSFUL translation request for a
loaded id, every subsequent request for it is served from the per-process
memo — no further LLM call, same payload — and requests for other ids never
disturb the memo entry; a failed request caches nothing. -/
theorem C8_translation_memo (traces : List Trace) (cache : List (String × TransResult))
    (oracle : Option TransResult) (tid : String) :
    (∀ r, getk cache tid = some r →
      translate_trace traces cache oracle tid = (.payload r, cache, 0)) ∧
    (∀ t r, getk cache tid = none → traces.find? (fun t => t.id = tid) = some t →
      oracle = some r →
      translate_trace traces cache oracle tid = (.payload r, setk cache tid r, 1) ∧
      getk (setk cache tid r) tid = some r) ∧
    (∀ tid', tid' ≠ tid →
      getk (translate_trace traces cache oracle tid').2.1 tid = getk cache tid) := by
  refine ⟨?_, ?_, ?_⟩
  · intro r hr
    simp [translate_trace, hr]
  · intro t r hnone hfind hor
    subst hor
    exact ⟨by simp [translate_trace, hnone, hfind], getk_setk_self _ _ _⟩
  · intro tid' hne
    rcases hc : getk cache tid' with _ | r
    · rcases hf : traces.find? (fun t => t.id = tid') with _ | t
      · simp [translate_trace, hc, hf]
      · rcases oracle with _ | r
        · simp [translate_trace, hc, hf]
        · simp [translate_trace, hc, hf, getk_setk_ne _ _ _ _ (Ne.symm hne)]
    · simp [translate_trace, hc]

/-- Witness for C8 (amended): a cached id is served from the memo with no
LLM call. -/
theorem C8_translation_memo_witness :
    translate_trace [] [("t1", ⟨"English", []⟩)] none "t1" =
      (.payload ⟨"English", []⟩, [("t1", ⟨"English", []⟩)], 0) :=
  (C8_translation_memo [] [("t1", ⟨"English", []⟩)] none "t1").1 ⟨"English", []⟩ (by decide)

/-! ## C9 — role normalization

The claim asserts the parser normalizes roles to a small closed set before
storing.  It does not: the stored role is the message's `type` verbatim
(`msg.get('type', 'human')` / `msg.get('type', 'ai')`); the closed-set
normalization (`User`/`Assistant`) happens only at rendering time in
`get_conversation_text`. -/

/-- The small closed set of normalized role values the spec describes
(user-like: `human`/`user`; assistant-like: `ai`/`assistant`), stated from
the spec's words for comparison with what the code stores. -/
def specNormalizedRoles : List String := ["human", "user", "ai", "assistant"]

/-- C9 counterexample: a message with `type = "weird"` is stored with role
`"weird"`, which is outside any closed user-like/assistant-like set. -/
theorem C9_role_stored_verbatim :
    (parse_traces [{ emptyRow with input := .ok [⟨some "weird", .str "x"⟩] }]).map
      (fun t => t.conversation.map (fun m => m.role)) = [["weird"]] ∧
    "weird" ∉ specNormalizedRoles := by
  constructor
  · decide
  · decide

/-- C9 (amended): parsing stores each message's `type` verbatim as the role
(defaulting to `human` on the input side and `ai` on the output side when
absent); the normalization to the closed `User`/`Assistant` pair happens in
`get_conversation_text`, which labels a turn `User` iff its role is `human`
or `user` and `Assistant` otherwise. -/
theorem C9_roles :
    (∀ role, roleLabel role = "User" ∨ roleLabel role = "Assistant") ∧
    (∀ role, (role = "human" ∨ role = "user") ↔ roleLabel role = "User") ∧
    (∀ msgs m, m ∈ processInput msgs → ∃ msg ∈ msgs, m.role = msg.type.getD "human") ∧
    (∀ msgs conv seen m, m ∈ processOutput msgs conv seen →
      m ∈ conv ∨ ∃ msg ∈ msgs, m.role = msg.type.getD "ai") := by
  refine ⟨?_, ?_, ?_, ?_⟩
  · intro role
    by_cases h : role = "human" ∨ role = "user" <;> simp [roleLabel, h]
  · intro role
    by_cases h : role = "human" ∨ role = "user" <;> simp [roleLabel, h]
  · intro msgs m hm
    rcases List.mem_filterMap.mp hm with ⟨msg, hmem, hf⟩
    refine ⟨msg, hmem, ?_⟩
    rcases hc : msg.content with s | ps <;> rw [hc] at hf
    · by_cases hs : s = ""
      · simp [hs] at hf
      · simp [hs] at hf
        rw [← hf]
    · simp at hf
  · intro msgs
    induction msgs with
    | nil =>
      intro conv seen m hm
      exact Or.inl hm
    | cons msg rest ih =>
      intro conv seen m hm
      simp only [processOutput] at hm
      by_cases hcond : flattenContent msg.content ≠ "" ∧ flattenContent msg.content ∉ seen
      · rw [if_pos hcond] at hm
        rcases ih _ _ m hm with hconv | ⟨msg', hmem', hrole'⟩
        · rcases List.mem_append.mp hconv with h | h
          · exact Or.inl h
          · refine Or.inr ⟨msg, List.mem_cons_self _ _, ?_⟩
            rw [show m = (⟨msg.type.getD "ai", flattenContent msg.content⟩ : Turn) from by
              simpa using h]
        · exact Or.inr ⟨msg', List.mem_cons_of_mem _ hmem', hrole'⟩
      · rw [if_neg hcond] at hm
        rcases ih _ _ m hm with hconv | ⟨msg', hmem', hrole'⟩
        · exact Or.inl hconv
        · exact Or.inr ⟨msg', List.mem_cons_of_mem _ hmem', hrole'⟩

/-- Witness for C9 (amended) at concrete inputs. -/
theorem C9_roles_witness :
    ∃ msg ∈ [(⟨some "weird", .str "x"⟩ : Msg)],
      (⟨"weird", "x"⟩ : Turn).role = msg.type.getD "human" :=
  C9_roles.2.2.1 [⟨some "weird", .str "x"⟩] ⟨"weird", "x"⟩ (by decide)

/-- Witness for C10: with two results for the same id, the merge stores the
second one's score and reason. -/
theorem C10_duplicate_last_wins_witness :
    getk (mergeT "showcase"
      (analysis_map [⟨"", 10, "first"⟩, ⟨"", 20, "second"⟩]) tC1).scores "showcase" =
      some 20 :=
  (C10_duplicate_last_wins.2 [⟨"", 10, "first"⟩, ⟨"", 20, "second"⟩] "showcase" tC1
    ⟨"", 20, "second"⟩ (by decide)).1

end App
